import Mathlib

/-!
Verification of the span-capture, folded-stack export and flame aggregation
core of the `cli-telemetry` repository.  The Python sources are embedded
shallowly: Python dicts become association lists with in-place update
semantics, spans become structures, the SQLite store becomes a list of rows,
and each module's functions become Lean functions with the same names.
-/

/-- Python dict lookup `d.get(k)` on an association list (first match wins;
all our dicts keep keys unique, as Python dicts do). -/
def alGet {α : Type} : List (String × α) → String → Option α
  | [], _ => none
  | (k', v) :: rest, k => if k' = k then some v else alGet rest k

/-- Python dict assignment `d[k] = v`: replaces the value in place if the key
exists, otherwise appends a new entry (insertion-order semantics). -/
def alUpsert {α : Type} : List (String × α) → String → α → List (String × α)
  | [], k, v => [(k, v)]
  | (k', v') :: rest, k, v =>
    if k' = k then (k', v) :: rest else (k', v') :: alUpsert rest k v

namespace Speedscope

/-- A JSON attribute value as far as `load_spans` inspects it: either a
scalar (kept as its Python `str()` rendering) or a list/tuple whose elements
are kept as their `str()` renderings. -/
inductive AttrVal where
  | prim (s : String)
  | seq (xs : List String)
deriving DecidableEq

/-- One row of the `otel_spans` query in `load_spans`
(`span_id, parent_span_id, name, start_time, end_time, attributes`), with the
`attributes` JSON already parsed: `none` models a `json.loads` failure, which
the code turns into `{}`. -/
structure SpanRow where
  span_id : String
  parent_span_id : Option String
  name : String
  start_time : Int
  end_time : Int
  attributes : Option (List (String × AttrVal))
deriving DecidableEq

/-- The `ATTRIBUTE_KEY_MAP` table of `load_spans`. -/
def ATTRIBUTE_KEY_MAP (raw_name : String) : Option String :=
  if raw_name = "subprocess.run" then some "subprocess.command"
  else if raw_name = "httpx.request" then some "http.url"
  else none

/-- The `raw_counts` dictionary of `load_spans`: occurrences of a raw name. -/
def rawCount (rows : List SpanRow) (n : String) : Nat :=
  (rows.filter (fun r => r.name = n)).length

/-- The per-row context suffix computed in `load_spans`: the mapped attribute
value, list values joined with single spaces (`" ".join`). -/
def suffixFor (r : SpanRow) : Option String :=
  match ATTRIBUTE_KEY_MAP r.name with
  | none => none
  | some key =>
    match alGet (r.attributes.getD []) key with
    | none => none
    | some (AttrVal.prim s) => some s
    | some (AttrVal.seq xs) => some (String.intercalate " " xs)

/-- Python truthiness of the `suffix` variable (`if suffix:`): `None` and the
empty string are falsy. -/
def truthy : Option String → Bool
  | none => false
  | some s => s ≠ ""

/-- The value stored per span id by `load_spans`. -/
structure SpanInfo where
  parent : Option String
  name : String
  start : Int
  stop : Int
deriving DecidableEq

/-- One iteration of the `load_spans` loop body: updates `seen_counts` and
computes the display name of row `r`. -/
def displayStep (raw_counts : String → Nat) (seen : List (String × Nat))
    (r : SpanRow) : List (String × Nat) × String :=
  let suffix := suffixFor r
  let count := raw_counts r.name
  let idx := (alGet seen r.name).getD 0 + 1
  let seen' := alUpsert seen r.name idx
  let display_name :=
    if count > 1 then
      if truthy suffix then r.name ++ " " ++ suffix.getD ""
      else r.name ++ " [" ++ toString idx ++ "]"
    else r.name
  (seen', display_name)

/-- One full iteration of the `load_spans` loop: compute the display name
and store the span entry under its id. -/
def loadStep (all : List SpanRow)
    (st : List (String × Nat) × List (String × SpanInfo)) (r : SpanRow) :
    List (String × Nat) × List (String × SpanInfo) :=
  let step := displayStep (rawCount all) st.1 r
  (step.1, alUpsert st.2 r.span_id
    ⟨r.parent_span_id, step.2, r.start_time, r.end_time⟩)

/-- `load_spans` (the display-name annotation loop; the SQL query is modelled
by taking the rows, already ordered by start time, as input). -/
def load_spans (rows : List SpanRow) : List (String × SpanInfo) :=
  (rows.foldl (loadStep rows)
    (([] : List (String × Nat)), ([] : List (String × SpanInfo)))).2

/-- `spans.get(x)` where `x` is the (possibly `None`) parent id. -/
def alGetO (spans : List (String × SpanInfo)) : Option String → Option SpanInfo
  | none => none
  | some k => alGet spans k

/-- The body of the `while current:` walk of `build_path`, building the
`path` list (self first), with explicit fuel.  The Python loop has no cycle
guard; `build_path` runs it with fuel `spans.length + 1`, which the
termination theorem shows is enough on every acyclic span set. -/
def buildPathRev : Nat → Option String → List (String × SpanInfo) → List String
  | 0, _, _ => []
  | fuel + 1, cur, spans =>
    match alGetO spans cur with
    | none => []
    | some info => info.name :: buildPathRev fuel info.parent spans

/-- `build_path(span_id, spans)`: walk parent pointers from the span up,
collecting display names, then return the reversed (root-first) list. -/
def build_path (span_id : String) (spans : List (String × SpanInfo)) :
    List String :=
  (buildPathRev (spans.length + 1) (some span_id) spans).reverse

/-- `export_folded(spans, min_us)`: one output line per kept span, modelling
the `print` calls as a list of lines in dict iteration order. -/
def export_folded (spans : List (String × SpanInfo)) (min_us : Int) :
    List String :=
  spans.filterMap (fun e =>
    let dur := e.2.stop - e.2.start
    if dur < min_us then none
    else some (String.intercalate ";" (build_path e.1 spans) ++ " " ++
      toString dur))

/-- One step of the parent walk: from the current (possibly `None`) id to the
parent id of the span it resolves to, `none` when the walk is over. -/
def parentStep (spans : List (String × SpanInfo)) (cur : Option String) :
    Option String :=
  match alGetO spans cur with
  | none => none
  | some info => info.parent

/-- `n`-fold iteration of `parentStep`. -/
def parentIter (spans : List (String × SpanInfo)) : Nat → Option String →
    Option String
  | 0, cur => cur
  | n + 1, cur => parentIter spans n (parentStep spans cur)

/-- Acyclicity of the loaded span set: no span id is its own (strict)
ancestor via parent links. -/
def Acyclic (spans : List (String × SpanInfo)) : Prop :=
  ∀ sid n, parentIter spans (n + 1) (some sid) ≠ some sid

/-- The display name of row `r` as the specification words it, amended in
one point: the context suffix is used only when the mapped attribute is
present AND stringifies to a non-empty string (the code's `if suffix:`
truthiness test).  `all` is the whole loaded set (for the occurrence count),
`prev` the rows encountered before `r` (for the 1-based occurrence index). -/
def specDisplayName (all prev : List SpanRow) (r : SpanRow) : String :=
  if rawCount all r.name ≤ 1 then r.name
  else
    match suffixFor r with
    | some s =>
      if s = "" then r.name ++ " [" ++ toString (rawCount prev r.name + 1) ++ "]"
      else r.name ++ " " ++ s
    | none => r.name ++ " [" ++ toString (rawCount prev r.name + 1) ++ "]"

/-- Display names of `rest` per the (amended) specification, given the rows
already encountered. -/
def specNames (all : List SpanRow) : List SpanRow → List SpanRow → List String
  | _, [] => []
  | prev, r :: rest => specDisplayName all prev r :: specNames all (prev ++ [r]) rest

/-- Three rows named `"step"` with no mapped attribute. -/
def rowsStep3 : List SpanRow :=
  [⟨"s1", none, "step", 0, 10, some []⟩,
   ⟨"s2", some "s1", "step", 1, 5, some []⟩,
   ⟨"s3", some "s1", "step", 6, 9, some []⟩]

/-- Two rows named `"subprocess.run"`, the first carrying the mapped
`"subprocess.command"` attribute with an empty list value, so that its
context suffix stringifies to the empty string. -/
def rowsEmptySuffix : List SpanRow :=
  [⟨"a", none, "subprocess.run", 0, 10, some [("subprocess.command", AttrVal.seq [])]⟩,
   ⟨"b", none, "subprocess.run", 11, 20, some []⟩]

/-- A single zero-duration span. -/
def spansZero : List (String × SpanInfo) :=
  [("a", ⟨none, "x", 5, 5⟩)]

/-- A root span with one child. -/
def spansRootChild : List (String × SpanInfo) :=
  [("r", ⟨none, "R", 0, 10⟩), ("c", ⟨some "r", "C", 1, 5⟩)]

/-- A span that is its own parent: a cyclic parent chain. -/
def spansCyc : List (String × SpanInfo) :=
  [("a", ⟨some "a", "x", 0, 10⟩)]

end Speedscope

namespace ViewFlame

/-- Round the exact fraction `num / den` (with `den > 0`) to the nearest
integer, ties to even — the rounding of CPython's fixed-point float
formatting.  The Python source computes with binary doubles; this exact
model agrees with it at every value whose scaled decimal is exactly
representable (which covers all values appearing in the claims). -/
def roundHalfEven (num den : Int) : Int :=
  let q := num.fdiv den
  let r := num - q * den
  if 2 * r < den then q
  else if den < 2 * r then q + 1
  else if q % 2 = 0 then q else q + 1

/-- Left-pad a digit string with zeros to width `w`. -/
def padLeftZeros (w : Nat) (s : String) : String :=
  if s.length ≥ w then s else String.mk (List.replicate (w - s.length) '0') ++ s

/-- Digits of the nonnegative fraction `num / den` with `decimals` places. -/
def fixedDigits (decimals : Nat) (num den : Int) : String :=
  let scaled := roundHalfEven (num * (10 : Int) ^ decimals) den
  let n := scaled.toNat
  let ip := n / 10 ^ decimals
  let fp := n % 10 ^ decimals
  if decimals = 0 then toString ip
  else toString ip ++ "." ++ padLeftZeros decimals (toString fp)

/-- Python's `f"{v:.Nf}"` fixed-point formatting of the exact value
`num / den`, `den > 0`. -/
def pyFixed (decimals : Nat) (num den : Int) : String :=
  if num < 0 then "-" ++ fixedDigits decimals (-num) den
  else fixedDigits decimals num den

/-- `format_time(us)` from `view_flame.py`: the float quotients
`us / 1_000_000` and `us / 1_000` are modelled as exact fractions. -/
def format_time (us : Int) : String :=
  if us ≥ 1000000 then pyFixed 2 us 1000000 ++ "s"
  else if us ≥ 1000 then pyFixed 2 us 1000 ++ "ms"
  else toString us ++ "μs"

/-- The node label built by `render` for a child with the given name,
accumulated time and grand total:
`f"[bold]{name}[/] • {human} ({pct:.1f}%)"`, the percentage
`dur / total_time * 100` modelled as the exact fraction
`(dur * 100) / total_time`. -/
def renderLabel (name : String) (dur : Int) (total_time : Int) : String :=
  "[bold]" ++ name ++ "[/] • " ++ format_time dur ++ " (" ++
    pyFixed 1 (dur * 100) total_time ++ "%)"

/-- A flame-graph tree node, the nested dict
`{'_time': total_us, 'children': {}}` of `build_tree`. -/
inductive FNode where
  | mk (time : Int) (children : List (String × FNode))

/-- The `'_time'` field. -/
def FNode.time : FNode → Int
  | .mk t _ => t

/-- The `'children'` dict. -/
def FNode.children : FNode → List (String × FNode)
  | .mk _ c => c

/-- Python `str.strip()` on the character list of a string (whitespace
from both ends). -/
def pyStripChars (cs : List Char) : List Char :=
  ((cs.dropWhile Char.isWhitespace).reverse.dropWhile Char.isWhitespace).reverse

/-- Python `str.split(sep)` for a one-character separator, over character
lists: always at least one (possibly empty) group. -/
def splitOnChar (c : Char) : List Char → List (List Char)
  | [] => [[]]
  | ch :: rest =>
    match splitOnChar c rest with
    | [] => [[]]
    | g :: gs => if ch = c then [] :: g :: gs else (ch :: g) :: gs

/-- Python `sep.join(groups)` for a one-character separator. -/
def joinWithChar (c : Char) : List (List Char) → List Char
  | [] => []
  | [g] => g
  | g :: gs => g ++ c :: joinWithChar c gs

/-- The value of a nonempty all-digit character list. -/
def digitsVal (cs : List Char) : Option Nat :=
  if cs ≠ [] ∧ cs.all Char.isDigit then
    some (cs.foldl (fun a ch => a * 10 + (ch.toNat - 48)) 0)
  else none

/-- CPython `int(s)` on an ASCII decimal literal: surrounding whitespace is
stripped, an optional sign is allowed, then at least one digit (underscore
separators and non-ASCII digits are not modelled). -/
def pyInt (s : String) : Option Int :=
  match pyStripChars s.data with
  | [] => none
  | ch :: rest =>
    if ch = '-' then (digitsVal rest).map (fun n => -(n : Int))
    else if ch = '+' then (digitsVal rest).map (fun n => (n : Int))
    else (digitsVal (ch :: rest)).map (fun n => (n : Int))

/-- The line-parsing prefix of the `build_tree` loop body: strip, require a
space, `rsplit(' ', 1)` into stack part and duration, parse the duration
(skipping the line on failure) and split the stack part on `';'`.  The
Python string operations are modelled over the strings' character lists. -/
def parseFolded (raw : String) : Option (List String × Int) :=
  let line := pyStripChars raw.data
  if line = [] then none
  else if ¬ line.contains ' ' then none
  else
    let groups := splitOnChar ' ' line
    let stack_part := joinWithChar ' ' groups.dropLast
    let us_part := groups.getLastD []
    match pyInt (String.mk us_part) with
    | none => none
    | some dur => some ((splitOnChar ';' stack_part).map String.mk, dur)

/-- `children[f] = g children[f]` with default `dflt` when the key is absent —
the `if frame not in children: children[frame] = ...; node = children[frame]`
pattern of the walk, with `g` the continuation on the chosen child. -/
def upsertWith (f : String) (g : FNode → FNode) (dflt : FNode) :
    List (String × FNode) → List (String × FNode)
  | [] => [(f, dflt)]
  | (k, c) :: cs => if k = f then (k, g c) :: cs else (k, c) :: upsertWith f g dflt cs

/-- The frame walk of the `build_tree` loop body: add `d` to the current
node's time, then descend (creating nodes as needed) through `frames`,
adding `d` at every node visited. -/
def addPath : List String → Int → FNode → FNode
  | [], d, .mk t cs => .mk (t + d) cs
  | fr :: rest, d, .mk t cs =>
    .mk (t + d) (upsertWith fr (addPath rest d) (addPath rest d (.mk 0 [])) cs)

/-- `build_tree(folded_lines)`: fold every parsable line into the tree,
skipping malformed lines. -/
def build_tree (folded_lines : List String) : FNode :=
  folded_lines.foldl
    (fun root line =>
      match parseFolded line with
      | none => root
      | some (frames, dur) => addPath frames dur root)
    (.mk 0 [])

/-- The duration contributed by one input line: its parsed duration for a
well-formed line, `0` for a skipped one. -/
def foldedDur (line : String) : Int :=
  match parseFolded line with
  | none => 0
  | some (_, d) => d

/-- Node of a tree reached by following a path of child names. -/
def nodeAt : FNode → List String → Option FNode
  | n, [] => some n
  | n, f :: p =>
    match alGet n.children f with
    | none => none
    | some c => nodeAt c p

/-- Accumulated time at a path, `0` when no node sits there. -/
def timeAt (n : FNode) (p : List String) : Int :=
  match nodeAt n p with
  | none => 0
  | some c => c.time

end ViewFlame

namespace Telemetry

/-- A live `Span` object of `telemetry.py`.  The `parent` reference to
another `Span` object is modelled by that span's (immutable) `span_id`;
timestamps are nanoseconds as returned by `time.time_ns()`. -/
structure SpanObj where
  name : String
  attributes : List (String × String)
  parent : Option String
  span_id : String
  start_time : Option Int
  end_time : Option Int
  status_code : Int
  events : List String
deriving DecidableEq

/-- One row of the `otel_spans` table as written by `_export_span`
(timestamps in microseconds). -/
structure StoredSpan where
  trace_id : String
  span_id : String
  parent_span_id : Option String
  name : String
  start_time : Int
  end_time : Int
  attributes : List (String × String)
  status_code : Int
  events : List String
deriving DecidableEq

/-- The mutable module state of `telemetry.py` for one thread: the live
`Span` objects (keyed by their ids), this thread's `_tls.span_stack`
(top first), the rows written to the SQLite store, whether `_conn` is
initialized, and `_trace_id`. -/
structure TState where
  heap : List (String × SpanObj)
  span_stack : List String
  store : List StoredSpan
  conn : Bool
  trace_id : String
deriving DecidableEq

/-- `Span.__init__` plus `Span.__enter__`: create the span, set its parent to
the top of the stack, record the start timestamp and push it. -/
def spanEnter (id name : String) (attributes : List (String × String))
    (t : Int) (st : TState) : TState :=
  { st with
    heap := alUpsert st.heap id
      { name := name, attributes := attributes, parent := st.span_stack.head?,
        span_id := id, start_time := some t, end_time := none,
        status_code := 0, events := [] },
    span_stack := id :: st.span_stack }

/-- `_export_span`: write the completed span into the store; a missing
connection drops the row (`if _conn is None: return`).  `int(ns / 1_000)` is
modelled as exact truncating division. -/
def exportSpan (s : SpanObj) (st : TState) : TState :=
  if st.conn then
    { st with store := st.store ++
        [{ trace_id := st.trace_id, span_id := s.span_id,
           parent_span_id := s.parent, name := s.name,
           start_time := (s.start_time.getD 0).tdiv 1000,
           end_time := (s.end_time.getD 0).tdiv 1000,
           attributes := s.attributes, status_code := s.status_code,
           events := s.events }] }
  else st

/-- The update `Span.__exit__` applies to the span object itself: record the
end timestamp, and when an exception is propagating record its string
representation and set `status_code = 1`. -/
def exitUpdate (s : SpanObj) (exc : Option String) (t : Int) : SpanObj :=
  let s1 := { s with end_time := some t }
  match exc with
  | some e => { s1 with attributes := alUpsert s1.attributes "exception" e,
                        status_code := 1 }
  | none => s1

/-- `Span.__exit__(exc_type, exc, tb)`: record the end timestamp, record the
exception (string representation, status 1) when one is propagating, pop the
span only if it is still the top of the stack, and export it.  The span
object always exists when Python runs `__exit__`; the `none` branch is
unreachable in any run that entered the span first. -/
def spanExit (id : String) (exc : Option String) (t : Int) (st : TState) :
    TState :=
  match alGet st.heap id with
  | none => st
  | some s =>
    exportSpan (exitUpdate s exc t)
      { st with heap := alUpsert st.heap id (exitUpdate s exc t),
                span_stack :=
                  if st.span_stack.head? = some id then st.span_stack.tail
                  else st.span_stack }

/-- `Span.set_attribute(key, value)`: unconditional dict assignment — there
is no open-span check in the source. -/
def set_attribute (id key value : String) (st : TState) : TState :=
  match alGet st.heap id with
  | none => st
  | some s =>
    { st with heap := alUpsert st.heap id
                ({ s with attributes := alUpsert s.attributes key value }) }

/-- The manual exception recording of `profile_block` and `profile` before
re-raising: `span.attributes["exception"] = str(exc); span.status_code = 1`. -/
def recordException (id e : String) (st : TState) : TState :=
  match alGet st.heap id with
  | none => st
  | some s =>
    { st with heap := alUpsert st.heap id
                ({ s with attributes := alUpsert s.attributes "exception" e,
                          status_code := 1 }) }

/-- `profile_block(name, tags)` around a block whose outcome is `work`
(`Except.error e` models a raised exception with `str(exc) = e`): enter the
span, apply the tags, and on an exception record it, close the span with
`__exit__(None, None, None)` and re-raise; on success just close. -/
def profile_block (name : String) (tags : List (String × String))
    (id : String) (work : Except String Unit) (t0 t1 : Int) (st : TState) :
    TState × Except String Unit :=
  let st1 := spanEnter id name [] t0 st
  let st2 := tags.foldl (fun acc kv => set_attribute id kv.1 kv.2 acc) st1
  match work with
  | .error e => (spanExit id none t1 (recordException id e st2), .error e)
  | .ok u => (spanExit id none t1 st2, .ok u)

/-- A telemetry API event in one thread of one process. -/
inductive TOp where
  | enter (id name : String) (t : Int)
  | close (id : String) (exc : Option String) (t : Int)
  | setattr (id key value : String)
deriving DecidableEq

/-- Apply one API event to the state. -/
def runOp (st : TState) : TOp → TState
  | .enter id name t => spanEnter id name [] t st
  | .close id exc t => spanExit id exc t st
  | .setattr id k v => set_attribute id k v st

/-- Run a sequence of API events. -/
def runOps (st : TState) (ops : List TOp) : TState :=
  ops.foldl runOp st

/-- A normal single-session usage pattern: span ids are fresh, only the
first span of the session is opened on an empty stack (the `start_session`
root), and spans are closed in well-nested order (matching `with` blocks and
decorators). -/
def legalFrom (st : TState) : List TOp → Bool
  | [] => true
  | op :: ops =>
    let ok :=
      match op with
      | .enter id _ _ =>
        (alGet st.heap id).isNone &&
          (!st.span_stack.isEmpty || st.heap.isEmpty)
      | .close id _ _ => st.span_stack.head? == some id
      | .setattr .. => true
    ok && legalFrom (runOp st op) ops

/-- The step relation between rows of a stored trace: from a child row to
the row of its parent span. -/
def parentRel (rows : List StoredSpan) (a b : StoredSpan) : Prop :=
  a ∈ rows ∧ b ∈ rows ∧ a.parent_span_id = some b.span_id

/-- The (id, parent id) skeleton of the live-span heap: closing a span or
setting attributes never changes it; only entering a span extends it. -/
def shape (h : List (String × SpanObj)) : List (String × Option String) :=
  h.map (fun e => (e.1, e.2.parent))

/-- Well-formedness of a heap skeleton, scanning left to right with the ids
already seen: a null-parent entry may only occur before any other id exists
(so only in position zero), and every parent id points to an earlier entry. -/
def ChainOK : List String → List (String × Option String) → Prop
  | _, [] => True
  | seen, (k, par) :: rest =>
    (match par with
     | none => seen = []
     | some p => p ∈ seen) ∧ ChainOK (seen ++ [k]) rest

/-- The inductive invariant of a legal single-session run. -/
structure Inv (st : TState) : Prop where
  conn_up : st.conn = true
  heap_nodup : (st.heap.map (fun e => e.1)).Nodup
  good : ChainOK [] (shape st.heap)
  key_eq : ∀ e ∈ st.heap, e.2.span_id = e.1
  stack_sub : ∀ id ∈ st.span_stack, id ∈ st.heap.map (fun e => e.1)
  stack_nodup : st.span_stack.Nodup
  store_match : ∀ r ∈ st.store,
    r.trace_id = st.trace_id ∧ (r.span_id, r.parent_span_id) ∈ shape st.heap
  store_nodup : (st.store.map (fun r => r.span_id)).Nodup
  store_off_stack : ∀ r ∈ st.store, r.span_id ∉ st.span_stack
  closed_stored : ∀ e ∈ st.heap, e.1 ∉ st.span_stack →
    ∃ r ∈ st.store, r.span_id = e.1

/-- The state right after `init_telemetry`: connection up, fresh trace id,
nothing recorded yet. -/
def stInit (tid : String) : TState :=
  { heap := [], span_stack := [], store := [], conn := true, trace_id := tid }

/-- A span that has already been closed (its `end_time` is set). -/
def closedSpanObj : SpanObj :=
  { name := "op", attributes := [("k", "v")], parent := none, span_id := "a",
    start_time := some 1000, end_time := some 5000, status_code := 0,
    events := [] }

/-- A state holding one closed span. -/
def stClosed : TState :=
  { heap := [("a", closedSpanObj)], span_stack := [], store := [],
    conn := true, trace_id := "T" }

/-- A span object as freshly entered at the bottom of a stack. -/
def spanX : SpanObj :=
  { name := "outer", attributes := [], parent := none, span_id := "x",
    start_time := some 1000, end_time := none, status_code := 0,
    events := [] }

/-- A child span of `spanX`, entered second. -/
def spanY : SpanObj :=
  { name := "inner", attributes := [], parent := some "x", span_id := "y",
    start_time := some 2000, end_time := none, status_code := 0,
    events := [] }

/-- A state with two open spans, `x` below `y` on the stack. -/
def stTwo : TState :=
  { heap := [("x", spanX), ("y", spanY)], span_stack := ["y", "x"],
    store := [], conn := true, trace_id := "T" }

/-- Two top-level spans opened and closed one after the other in one
session: both get a null parent and both are persisted under the same
trace id. -/
def opsTwoRoots : List TOp :=
  [.enter "a" "x" 1000, .close "a" none 2000,
   .enter "b" "y" 3000, .close "b" none 4000]

/-- A well-nested single-root session: root with two children closed in
order. -/
def opsNested : List TOp :=
  [.enter "r" "cli_invocation" 1000,
   .enter "c1" "step" 2000, .close "c1" none 3000,
   .enter "c2" "step" 4000, .setattr "c2" "k" "v", .close "c2" none 5000,
   .close "r" none 6000]

end Telemetry

/-! ## Association-list lemmas -/

open Speedscope ViewFlame Telemetry

theorem alGet_upsert_self {α : Type} (l : List (String × α)) (k : String) (v : α) :
    alGet (alUpsert l k v) k = some v := by
  induction l with
  | nil => simp [alUpsert, alGet]
  | cons e rest ih =>
    obtain ⟨k', v'⟩ := e
    by_cases h : k' = k <;> simp [alUpsert, alGet, h, ih]

theorem alGet_upsert_ne {α : Type} (l : List (String × α)) {k k' : String} (v : α)
    (h : k' ≠ k) : alGet (alUpsert l k v) k' = alGet l k' := by
  have hk : k ≠ k' := Ne.symm h
  induction l with
  | nil => simp [alUpsert, alGet, hk]
  | cons e rest ih =>
    obtain ⟨k0, v0⟩ := e
    by_cases h0 : k0 = k
    · subst h0
      simp [alUpsert, alGet, hk]
    · simp [alUpsert, alGet, h0, ih]

theorem alGet_eq_none_iff {α : Type} (l : List (String × α)) (k : String) :
    alGet l k = none ↔ k ∉ l.map (fun e => e.1) := by
  induction l with
  | nil => simp [alGet]
  | cons e rest ih =>
    obtain ⟨k', v'⟩ := e
    by_cases h : k' = k
    · subst h
      simp [alGet]
    · simp [alGet, h, ih, Ne.symm h]

theorem alGet_isSome_of_mem {α : Type} (l : List (String × α)) (k : String)
    (h : k ∈ l.map (fun e => e.1)) : ∃ v, alGet l k = some v := by
  rcases h' : alGet l k with _ | v
  · exact absurd h ((alGet_eq_none_iff l k).mp h')
  · exact ⟨v, rfl⟩

theorem alGet_mem {α : Type} (l : List (String × α)) (k : String) (v : α)
    (h : alGet l k = some v) : (k, v) ∈ l := by
  induction l with
  | nil => simp [alGet] at h
  | cons e rest ih =>
    obtain ⟨k', v'⟩ := e
    by_cases h0 : k' = k
    · subst h0
      simp [alGet] at h
      simp [h]
    · simp [alGet, h0] at h
      exact List.mem_cons_of_mem _ (ih h)

theorem alUpsert_of_not_mem {α : Type} (l : List (String × α)) (k : String) (v : α)
    (h : k ∉ l.map (fun e => e.1)) : alUpsert l k v = l ++ [(k, v)] := by
  induction l with
  | nil => simp [alUpsert]
  | cons e rest ih =>
    obtain ⟨k', v'⟩ := e
    simp only [List.map_cons, List.mem_cons] at h
    push_neg at h
    simp [alUpsert, Ne.symm h.1, ih h.2]

theorem mem_alUpsert {α : Type} (l : List (String × α)) (k : String) (v : α)
    (e : String × α) (h : e ∈ alUpsert l k v) : e ∈ l ∨ e = (k, v) := by
  induction l with
  | nil => simpa [alUpsert] using h
  | cons e0 rest ih =>
    obtain ⟨k', v'⟩ := e0
    by_cases h0 : k' = k
    · subst h0
      simp [alUpsert] at h
      rcases h with h | h
      · right; simp [h]
      · left; simp [h]
    · simp [alUpsert, h0] at h
      rcases h with h | h
      · left; simp [h]
      · rcases ih h with h' | h'
        · left; exact List.mem_cons_of_mem _ h'
        · right; exact h'

theorem map_alUpsert_of_get {α β : Type} (l : List (String × α)) (k : String)
    (v s : α) (f : String × α → β) (hget : alGet l k = some s)
    (hf : f (k, v) = f (k, s)) : (alUpsert l k v).map f = l.map f := by
  induction l with
  | nil => simp [alGet] at hget
  | cons e rest ih =>
    obtain ⟨k', v'⟩ := e
    by_cases h0 : k' = k
    · subst h0
      simp [alGet] at hget
      subst hget
      simp [alUpsert, hf]
    · simp [alGet, h0] at hget
      simp [alUpsert, h0, ih hget]

theorem map_fst_alUpsert_of_get {α : Type} (l : List (String × α)) (k : String)
    (v s : α) (hget : alGet l k = some s) :
    (alUpsert l k v).map (fun e => e.1) = l.map (fun e => e.1) :=
  map_alUpsert_of_get l k v s _ hget rfl

/-! ## C1: display-name disambiguation in `load_spans` -/

theorem rawCount_append (l1 l2 : List SpanRow) (n : String) :
    rawCount (l1 ++ l2) n = rawCount l1 n + rawCount l2 n := by
  simp [rawCount, List.filter_append]

theorem rawCount_singleton (r : SpanRow) (n : String) :
    rawCount [r] n = if r.name = n then 1 else 0 := by
  by_cases h : r.name = n <;> simp [rawCount, h]

theorem displayStep_spec (all prev : List SpanRow) (seen : List (String × Nat))
    (r : SpanRow) (hseen : ∀ n, (alGet seen n).getD 0 = rawCount prev n) :
    (displayStep (rawCount all) seen r).2 = specDisplayName all prev r ∧
    ∀ n, (alGet (displayStep (rawCount all) seen r).1 n).getD 0
        = rawCount (prev ++ [r]) n := by
  constructor
  · simp only [displayStep, specDisplayName, hseen r.name]
    by_cases hc : rawCount all r.name ≤ 1
    · have h1 : ¬ rawCount all r.name > 1 := by omega
      simp [h1, hc]
    · have hgt : rawCount all r.name > 1 := by omega
      simp only [hc, if_false, hgt, if_true]
      rcases hs : suffixFor r with _ | s
      · simp [truthy, hs]
      · by_cases he : s = ""
        · simp [truthy, hs, he]
        · simp [truthy, hs, he]
  · intro n
    simp only [displayStep]
    by_cases hn : n = r.name
    · subst hn
      rw [alGet_upsert_self]
      simp [rawCount_append, rawCount_singleton, hseen r.name]
    · rw [alGet_upsert_ne _ _ hn]
      simp [rawCount_append, rawCount_singleton, hseen n, Ne.symm hn]

theorem load_spans_loop (all : List SpanRow) :
    ∀ (rest prev : List SpanRow) (seen : List (String × Nat))
      (spans : List (String × SpanInfo)),
      (∀ n, (alGet seen n).getD 0 = rawCount prev n) →
      spans.map (fun e => e.1) = prev.map (fun r => r.span_id) →
      ((prev ++ rest).map (fun r => r.span_id)).Nodup →
      ((rest.foldl (loadStep all) (seen, spans)).2).map (fun e => e.2.name)
        = spans.map (fun e => e.2.name) ++ specNames all prev rest := by
  intro rest
  induction rest with
  | nil =>
    intro prev seen spans _ _ _
    simp [specNames]
  | cons r rest ih =>
    intro prev seen spans hseen hkeys hnodup
    have hstep := displayStep_spec all prev seen r hseen
    have hnodup' : (((prev ++ [r]) ++ rest).map (fun r => r.span_id)).Nodup := by
      simpa using hnodup
    have hfresh : r.span_id ∉ spans.map (fun e => e.1) := by
      rw [hkeys]
      intro hmem
      rw [List.map_append, List.nodup_append] at hnodup
      exact hnodup.2.2 hmem (by simp)
    have hup : loadStep all (seen, spans) r
        = ((displayStep (rawCount all) seen r).1,
           spans ++ [(r.span_id,
             ⟨r.parent_span_id, (displayStep (rawCount all) seen r).2,
              r.start_time, r.end_time⟩)]) := by
      simp only [loadStep]
      rw [alUpsert_of_not_mem _ _ _ hfresh]
    rw [List.foldl_cons, hup]
    rw [ih (prev ++ [r]) _ _ hstep.2 (by simp [hkeys]) hnodup']
    simp [specNames, hstep.1]

/-- C1 (counterexample): in a pair of spans named `"subprocess.run"`, the
first one carries the mapped `"subprocess.command"` attribute (an empty
list), so by the claim its display name should be the raw name plus the
attribute suffix, `"subprocess.run "`.  The code's `if suffix:` truthiness
test rejects the empty suffix and falls back to the occurrence index. -/
theorem c1_suffix_counterexample :
    (load_spans rowsEmptySuffix).map (fun e => e.2.name)
        = ["subprocess.run [1]", "subprocess.run [2]"] ∧
      ("subprocess.run [1]" : String) ≠ "subprocess.run " := by
  constructor
  · rfl
  · decide

/-- C1 (amended): for every loaded span set with distinct span ids, the
display names computed by `load_spans` are exactly the specified ones, with
the suffix rule amended to require a non-empty suffix: a unique raw name is
kept unchanged; a duplicated raw name gets `" {attribute_value}"` when the
mapped context attribute is present and stringifies non-empty (sequences
joined with single spaces), and otherwise `" [{occurrence_index}]"` with a
1-based index in encounter order among spans sharing the raw name. -/
theorem c1_display_names (rows : List SpanRow)
    (h : (rows.map (fun r => r.span_id)).Nodup) :
    (load_spans rows).map (fun e => e.2.name) = specNames rows [] rows := by
  have := load_spans_loop rows rows [] [] []
    (by intro n; simp [alGet, rawCount])
    (by simp)
    (by simpa using h)
  simpa [load_spans] using this

/-- C1 witness: three spans named `"step"` with no mapped attribute have
distinct ids, and their display names match the specification — concretely
`["step [1]", "step [2]", "step [3]"]`. -/
theorem c1_display_names_witness :
    ((rowsStep3.map (fun r => r.span_id)).Nodup ∧
      (load_spans rowsStep3).map (fun e => e.2.name)
        = specNames rowsStep3 [] rowsStep3) ∧
      specNames rowsStep3 [] rowsStep3 = ["step [1]", "step [2]", "step [3]"] :=
  ⟨⟨by decide, c1_display_names rowsStep3 (by decide)⟩, by rfl⟩

/-! ## C4/C10: the `build_path` parent walk -/

theorem parentIter_none (spans : List (String × SpanInfo)) (n : Nat) :
    parentIter spans n none = none := by
  induction n with
  | zero => rfl
  | succ n ih =>
    have hstep : parentStep spans none = none := rfl
    show parentIter spans n (parentStep spans none) = none
    rw [hstep]
    exact ih

theorem parentIter_add (spans : List (String × SpanInfo)) (m n : Nat)
    (cur : Option String) :
    parentIter spans (m + n) cur = parentIter spans n (parentIter spans m cur) := by
  induction m generalizing cur with
  | zero => simp [parentIter]
  | succ m ih =>
    have h1 : m + 1 + n = (m + n) + 1 := by omega
    rw [h1]
    show parentIter spans (m + n) (parentStep spans cur)
        = parentIter spans n (parentIter spans m (parentStep spans cur))
    exact ih (parentStep spans cur)

theorem buildPathRev_stable (spans : List (String × SpanInfo)) :
    ∀ (k : Nat) (cur : Option String),
      alGetO spans (parentIter spans k cur) = none →
      ∀ m, k ≤ m → buildPathRev m cur spans = buildPathRev k cur spans := by
  intro k
  induction k with
  | zero =>
    intro cur hdead m _
    cases m with
    | zero => rfl
    | succ m => simp [buildPathRev, show alGetO spans cur = none from hdead]
  | succ k ih =>
    intro cur hdead m hm
    obtain ⟨m', rfl⟩ : ∃ m', m = m' + 1 := ⟨m - 1, by omega⟩
    rcases hcur : alGetO spans cur with _ | info
    · simp [buildPathRev, hcur]
    · have hstep : parentStep spans cur = info.parent := by
        simp [parentStep, hcur]
      have hdead' : alGetO spans (parentIter spans k info.parent) = none := by
        have hk : parentIter spans (k + 1) cur
            = parentIter spans k (parentStep spans cur) := rfl
        rw [hk, hstep] at hdead
        exact hdead
      simp [buildPathRev, hcur, ih info.parent hdead' m' (by omega)]

theorem halt_of_acyclic (spans : List (String × SpanInfo)) (h : Acyclic spans)
    (cur : Option String) :
    ∃ k ≤ spans.length, alGetO spans (parentIter spans k cur) = none := by
  by_contra hc
  push_neg at hc
  have hsome : ∀ k : Nat, k ≤ spans.length →
      ∃ s, parentIter spans k cur = some s ∧ alGet spans s ≠ none := by
    intro k hk
    rcases hx : parentIter spans k cur with _ | s
    · have := hc k hk
      rw [hx] at this
      exact absurd rfl this
    · refine ⟨s, rfl, ?_⟩
      have := hc k hk
      rw [hx] at this
      simpa [alGetO] using this
  set N := spans.length with hN
  let f : Fin (N + 1) → String := fun k => (parentIter spans k.val cur).getD ""
  have hfval : ∀ k : Fin (N + 1), parentIter spans k.val cur = some (f k) := by
    intro k
    obtain ⟨s, hs, _⟩ := hsome k.val (by omega)
    simp [f, hs]
  have hfkey : ∀ k : Fin (N + 1), f k ∈ spans.map (fun e => e.1) := by
    intro k
    obtain ⟨s, hs, hget⟩ := hsome k.val (by omega)
    have hfs : f k = s := by simp [f, hs]
    rw [hfs]
    by_contra hmem
    exact hget ((alGet_eq_none_iff spans s).mpr hmem)
  have hlt : ∀ i j : Fin (N + 1), i.val < j.val → f i ≠ f j := by
    intro i j hij heq
    have hi := hfval i
    have hj := hfval j
    have hsplit : parentIter spans (i.val + (j.val - i.val)) cur
        = parentIter spans (j.val - i.val) (parentIter spans i.val cur) :=
      parentIter_add spans i.val (j.val - i.val) cur
    rw [show i.val + (j.val - i.val) = j.val by omega, hi, hj] at hsplit
    rw [← heq] at hsplit
    have hd : j.val - i.val = (j.val - i.val - 1) + 1 := by omega
    rw [hd] at hsplit
    exact h (f i) (j.val - i.val - 1) hsplit.symm
  have hinj : Function.Injective f := by
    intro i j heq
    by_contra hne
    rcases Nat.lt_or_ge i.val j.val with hlt' | hge
    · exact hlt i j hlt' heq
    · have : j.val < i.val := by
        rcases Nat.lt_or_ge j.val i.val with h' | h'
        · exact h'
        · exact absurd (Fin.ext (by omega)) hne
      exact hlt j i this heq.symm
  have hsub : Finset.univ.image f ⊆ (spans.map (fun e => e.1)).toFinset := by
    intro x hx
    simp only [Finset.mem_image] at hx
    obtain ⟨k, _, rfl⟩ := hx
    simpa using hfkey k
  have hcard1 : (Finset.univ.image f).card = N + 1 := by
    rw [Finset.card_image_of_injective _ hinj, Finset.card_univ, Fintype.card_fin]
  have hcard2 : ((spans.map (fun e => e.1)).toFinset).card ≤ N := by
    calc ((spans.map (fun e => e.1)).toFinset).card
        ≤ (spans.map (fun e => e.1)).length := List.toFinset_card_le _
      _ = N := by simp [hN]
  have := Finset.card_le_card hsub
  omega

theorem acyclic_spansRootChild : Acyclic spansRootChild := by
  intro sid n
  show parentIter spansRootChild n (parentStep spansRootChild (some sid)) ≠ some sid
  by_cases hr : sid = "r"
  · subst hr
    have hstep : parentStep spansRootChild (some "r") = none := by decide
    rw [hstep, parentIter_none]
    simp
  · by_cases hc : sid = "c"
    · subst hc
      have hstep : parentStep spansRootChild (some "c") = some "r" := by decide
      rw [hstep]
      cases n with
      | zero => decide
      | succ m =>
        have hstep2 : parentStep spansRootChild (some "r") = none := by decide
        show parentIter spansRootChild m (parentStep spansRootChild (some "r"))
            ≠ some "c"
        rw [hstep2, parentIter_none]
        simp
    · have hget : alGet spansRootChild sid = none := by
        simp [spansRootChild, alGet, Ne.symm hr, Ne.symm hc]
      have hstep : parentStep spansRootChild (some sid) = none := by
        simp [parentStep, alGetO, hget]
      rw [hstep, parentIter_none]
      simp

/-! ## C3: `export_folded` emission rule -/

theorem filterMap_eq_map_filter {α β : Type} (f : α → Option β) (p : α → Bool)
    (g : α → β) (hf : ∀ x, f x = if p x then some (g x) else none)
    (l : List α) : l.filterMap f = (l.filter p).map g := by
  induction l with
  | nil => simp
  | cons x xs ih =>
    by_cases h : p x <;> simp [List.filterMap_cons, hf x, h, ih]

/-- C3 (amended): `export_folded` emits one line, path joined by `";"` plus
a space plus the integer duration, for exactly the spans whose duration
`end − start` is at least `min_us` — nothing more: with `min_us ≤ 0`,
zero- or negative-duration spans are emitted too (the "always dropped"
clause of the claim only holds for `min_us ≥ 1`, e.g. the default 1). -/
theorem c3_export_folded (spans : List (String × SpanInfo)) (min_us : Int) :
    export_folded spans min_us
      = (spans.filter (fun e => decide (min_us ≤ e.2.stop - e.2.start))).map
          (fun e => String.intercalate ";" (build_path e.1 spans) ++ " " ++
            toString (e.2.stop - e.2.start)) := by
  apply filterMap_eq_map_filter
  intro x
  by_cases h : min_us ≤ x.2.stop - x.2.start
  · simp [h, not_lt.mpr h]
  · simp [h, not_le.mp h]

/-- C3 (counterexample): with `min_us = 0` (a value the `--min-us` flag
accepts), a span of zero duration is emitted, not dropped. -/
theorem c3_zero_duration_counterexample :
    export_folded spansZero 0 = ["x 0"] ∧ (["x 0"] : List String) ≠ [] := by
  constructor
  · rfl
  · decide

/-- C4: for a span present in the loaded mapping, (1) when its parent id is
null or absent from the mapping the walk stops at once and the path is the
singleton of its own display name (the dangling parent is treated as "this
span is effectively root", not an error); (2) on an acyclic mapping, a
resolvable parent contributes its own root-first path as a prefix:
`build_path` returns the display names from the effective root down to the
span. -/
theorem c4_build_path (spans : List (String × SpanInfo)) (sid : String)
    (info : SpanInfo) (h : alGet spans sid = some info) :
    (alGetO spans info.parent = none → build_path sid spans = [info.name]) ∧
    (Acyclic spans → ∀ p, info.parent = some p →
      build_path sid spans = build_path p spans ++ [info.name]) := by
  have h1 : alGetO spans (some sid) = some info := by simp [alGetO, h]
  constructor
  · intro hpar
    have h2 : buildPathRev spans.length info.parent spans
        = buildPathRev 0 info.parent spans :=
      buildPathRev_stable spans 0 info.parent hpar spans.length (Nat.zero_le _)
    simp [build_path, buildPathRev, h1, h2]
  · intro hac p hp
    obtain ⟨k, hk, hdead⟩ := halt_of_acyclic spans hac (some p)
    have h2 : buildPathRev spans.length (some p) spans
        = buildPathRev (spans.length + 1) (some p) spans := by
      rw [buildPathRev_stable spans k _ hdead spans.length hk,
          buildPathRev_stable spans k _ hdead (spans.length + 1) (by omega)]
    have h3 : buildPathRev (spans.length + 1) (some sid) spans
        = info.name :: buildPathRev spans.length (some p) spans := by
      simp [buildPathRev, h1, hp]
    simp [build_path, h3, h2]

/-- C4 witness: in the two-span mapping `{r ↦ root, c ↦ child of r}`, the
root's path is its own singleton and the child's path is the root's path
followed by the child's name. -/
theorem c4_build_path_witness :
    build_path "r" spansRootChild = [(⟨none, "R", 0, 10⟩ : SpanInfo).name] ∧
      build_path "c" spansRootChild
        = build_path "r" spansRootChild ++ [(⟨some "r", "C", 1, 5⟩ : SpanInfo).name] :=
  ⟨(c4_build_path spansRootChild "r" ⟨none, "R", 0, 10⟩ (by decide)).1 (by decide),
   (c4_build_path spansRootChild "c" ⟨some "r", "C", 1, 5⟩ (by decide)).2
     acyclic_spansRootChild "r" rfl⟩

/-- C10: the `build_path` loop is well-founded exactly on acyclic span sets:
(1) on an acyclic mapping the walk halts within `spans.length` steps, so the
result is independent of any fuel beyond that bound; (2) on a cyclic chain
the loop condition `spans.get(...)` never turns falsy — the Python loop,
which has no cycle guard, never exits. -/
theorem c10_build_path_termination (spans : List (String × SpanInfo))
    (sid : String) :
    (Acyclic spans →
      ∀ m n, spans.length < m → spans.length < n →
        buildPathRev m (some sid) spans = buildPathRev n (some sid) spans) ∧
    (∀ p, parentIter spans (p + 1) (some sid) = some sid →
      ∀ k, alGetO spans (parentIter spans k (some sid)) ≠ none) := by
  constructor
  · intro hac m n hm hn
    obtain ⟨k, hk, hdead⟩ := halt_of_acyclic spans hac (some sid)
    rw [buildPathRev_stable spans k _ hdead m (by omega),
        buildPathRev_stable spans k _ hdead n (by omega)]
  · intro p hcyc k hdead
    have hnone : parentIter spans (k + 1) (some sid) = none := by
      rw [parentIter_add spans k 1]
      rcases hx : parentIter spans k (some sid) with _ | s
      · rw [parentIter_none]
      · rw [hx] at hdead
        show parentIter spans 0 (parentStep spans (some s)) = none
        simp [parentIter, parentStep, hdead]
    have hforever : ∀ j, parentIter spans (k + 1 + j) (some sid) = none := by
      intro j
      rw [parentIter_add spans (k + 1) j, hnone, parentIter_none]
    have hmult : ∀ j, parentIter spans ((p + 1) * j) (some sid) = some sid := by
      intro j
      induction j with
      | zero => simp [parentIter]
      | succ j ihj =>
        have hr : (p + 1) * (j + 1) = (p + 1) * j + (p + 1) := by ring
        rw [hr, parentIter_add, ihj, hcyc]
    have hbig : k + 1 ≤ (p + 1) * (k + 1) := Nat.le_mul_of_pos_left _ (Nat.succ_pos p)
    have h1 := hmult (k + 1)
    have h2 := hforever ((p + 1) * (k + 1) - (k + 1))
    rw [show k + 1 + ((p + 1) * (k + 1) - (k + 1)) = (p + 1) * (k + 1) by omega]
      at h2
    rw [h1] at h2
    exact Option.noConfusion h2

/-- C10 witness: on the acyclic two-span mapping any two fuels beyond its
size agree, and on the one-span self-parent cycle the loop condition holds
at every step. -/
theorem c10_build_path_termination_witness :
    buildPathRev 3 (some "c") spansRootChild
        = buildPathRev 4 (some "c") spansRootChild ∧
      ∀ k, alGetO spansCyc (parentIter spansCyc k (some "a")) ≠ none :=
  ⟨(c10_build_path_termination spansRootChild "c").1 acyclic_spansRootChild 3 4
      (by decide) (by decide),
   (c10_build_path_termination spansCyc "a").2 0 (by decide)⟩

/-! ## C2: `build_tree` accumulates every line along its whole path -/

theorem addPath_time (frames : List String) (d : Int) (n : FNode) :
    (addPath frames d n).time = n.time + d := by
  cases frames <;> cases n <;> rfl

theorem alGet_upsertWith_none (f : String) (g : FNode → FNode) (dflt : FNode)
    (cs : List (String × FNode)) (h : alGet cs f = none) :
    alGet (upsertWith f g dflt cs) f = some dflt := by
  induction cs with
  | nil => simp [upsertWith, alGet]
  | cons e rest ih =>
    obtain ⟨k, c⟩ := e
    by_cases hk : k = f
    · subst hk
      simp [alGet] at h
    · simp [alGet, hk] at h
      simp [upsertWith, alGet, hk, ih h]

theorem alGet_upsertWith_some (f : String) (g : FNode → FNode) (dflt : FNode)
    (cs : List (String × FNode)) (c : FNode) (h : alGet cs f = some c) :
    alGet (upsertWith f g dflt cs) f = some (g c) := by
  induction cs with
  | nil => simp [alGet] at h
  | cons e rest ih =>
    obtain ⟨k, c0⟩ := e
    by_cases hk : k = f
    · subst hk
      simp [alGet] at h
      subst h
      simp [upsertWith, alGet]
    · simp [alGet, hk] at h
      simp [upsertWith, alGet, hk, ih h]

theorem timeAt_nil_path (n : FNode) : timeAt n [] = n.time := by
  simp [timeAt, nodeAt]

theorem timeAt_cons_none (t : Int) (cs : List (String × FNode)) (x : String)
    (p : List String) (h : alGet cs x = none) :
    timeAt (.mk t cs) (x :: p) = 0 := by
  simp [timeAt, nodeAt, FNode.children, h]

theorem timeAt_cons_some (t : Int) (cs : List (String × FNode)) (x : String)
    (p : List String) (c : FNode) (h : alGet cs x = some c) :
    timeAt (.mk t cs) (x :: p) = timeAt c p := by
  simp [timeAt, nodeAt, FNode.children, h]

theorem timeAt_empty_node (p : List String) : timeAt (.mk 0 []) p = 0 := by
  cases p with
  | nil => simp [timeAt_nil_path, FNode.time]
  | cons x p => exact timeAt_cons_none 0 [] x p (by simp [alGet])

theorem timeAt_addPath (p : List String) :
    ∀ (frames : List String) (d : Int) (n : FNode), p <+: frames →
      timeAt (addPath frames d n) p = timeAt n p + d := by
  induction p with
  | nil =>
    intro frames d n _
    simp [timeAt_nil_path, addPath_time]
  | cons x p ih =>
    intro frames d n hp
    obtain ⟨tl, htl⟩ := hp
    have hfr : frames = x :: (p ++ tl) := by rw [← htl]; rfl
    subst hfr
    obtain ⟨tn, cs⟩ := n
    show timeAt (.mk (tn + d)
        (upsertWith x (addPath (p ++ tl) d) (addPath (p ++ tl) d (.mk 0 [])) cs))
        (x :: p) = timeAt (.mk tn cs) (x :: p) + d
    rcases hc : alGet cs x with _ | c
    · rw [timeAt_cons_some _ _ _ _ _ (alGet_upsertWith_none x _ _ cs hc),
          timeAt_cons_none _ _ _ _ hc,
          ih (p ++ tl) d (.mk 0 []) ⟨tl, rfl⟩, timeAt_empty_node]
    · rw [timeAt_cons_some _ _ _ _ _ (alGet_upsertWith_some x _ _ cs c hc),
          timeAt_cons_some _ _ _ _ _ hc,
          ih (p ++ tl) d c ⟨tl, rfl⟩]

theorem build_tree_fold_time (lines : List String) :
    ∀ n : FNode,
      (lines.foldl
        (fun root line =>
          match parseFolded line with
          | none => root
          | some (frames, dur) => addPath frames dur root) n).time
        = n.time + (lines.map foldedDur).sum := by
  induction lines with
  | nil => intro n; simp
  | cons line rest ih =>
    intro n
    rcases hp : parseFolded line with _ | fd
    · simp [List.foldl_cons, hp, ih, foldedDur]
    · obtain ⟨frames, dur⟩ := fd
      simp [List.foldl_cons, hp, ih, foldedDur, addPath_time]
      ring

/-- C2: `build_tree` adds each well-formed line's duration at every node
along the line's path including the implicit root — appending one more
parsable line increases the accumulated time of every prefix of its frame
path by its duration — so the root's total is the sum of the durations of
all well-formed (non-skipped) lines, and rebuilding from the same input
yields the identical tree. -/
theorem c2_build_tree (lines : List String) :
    (build_tree lines).time = (lines.map foldedDur).sum ∧
    build_tree lines = build_tree lines ∧
    (∀ line frames dur p, parseFolded line = some (frames, dur) → p <+: frames →
      timeAt (build_tree (lines ++ [line])) p
        = timeAt (build_tree lines) p + dur) := by
  refine ⟨?_, rfl, ?_⟩
  · have := build_tree_fold_time lines (.mk 0 [])
    simpa [build_tree, FNode.time] using this
  · intro line frames dur p hparse hp
    have happ : build_tree (lines ++ [line])
        = addPath frames dur (build_tree lines) := by
      simp [build_tree, List.foldl_append, hparse]
    rw [happ, timeAt_addPath p frames dur _ hp]

/-- C2 witness: two copies of the line `a;b …`; appending the second adds
its duration 3 at the interior node `a` (8 = 5 + 3 microseconds there). -/
theorem c2_build_tree_witness :
    parseFolded "a;b 3" = some (["a", "b"], 3) ∧
      (["a"] : List String) <+: ["a", "b"] ∧
      timeAt (build_tree (["a;b 5"] ++ ["a;b 3"])) ["a"]
        = timeAt (build_tree ["a;b 5"]) ["a"] + 3 :=
  ⟨by decide, ⟨["b"], rfl⟩,
   (c2_build_tree ["a;b 5"]).2.2 "a;b 3" ["a", "b"] 3 ["a"] (by decide)
     ⟨["b"], rfl⟩⟩

/-! ## C5: rendering of a quarter-second node -/

/-- C5 (counterexample): 250,000 µs is below the 1,000,000 µs seconds
threshold, so `format_time` renders it as milliseconds — `"250.00ms"`, not
the `"0.25s"` th claim asserts. -/
theorem c5_format_time_counterexample :
    format_time 250000 = "250.00ms" ∧ ("250.00ms" : String) ≠ "0.25s" := by
  constructor
  · decide
  · decide

/-- C5 (amended): a node with accumulated time 250,000 µs under a
1,000,000 µs total is labelled `… 250.00ms (25.0%)` — milliseconds with two
decimals per the `format_time` rule (≥ 1,000,000 µs → seconds, ≥ 1,000 µs →
milliseconds, else raw microseconds), and 25.0% with one decimal. -/
theorem c5_render_quarter (name : String) :
    renderLabel name 250000 1000000
        = "[bold]" ++ name ++ "[/] • 250.00ms (25.0%)" ∧
      format_time 250000 = "250.00ms" ∧
      format_time 1500000 = "1.50s" ∧
      format_time 999 = "999μs" := by
  refine ⟨?_, by decide, by decide, by decide⟩
  have h1 : format_time 250000 = "250.00ms" := by decide
  have h2 : pyFixed 1 (250000 * 100) 1000000 = "25.0" := by decide
  simp only [renderLabel, h1, h2, String.append_assoc]
  have h3 : "[/] • " ++ ("250.00ms" ++ (" (" ++ ("25.0" ++ "%)")))
      = "[/] • 250.00ms (25.0%)" := by decide
  rw [h3]

/-! ## Telemetry state lemmas -/

theorem exportSpan_heap (s : SpanObj) (st : TState) :
    (exportSpan s st).heap = st.heap := by
  by_cases h : st.conn <;> simp [exportSpan, h]

theorem exportSpan_stack (s : SpanObj) (st : TState) :
    (exportSpan s st).span_stack = st.span_stack := by
  by_cases h : st.conn <;> simp [exportSpan, h]

theorem exportSpan_conn (s : SpanObj) (st : TState) :
    (exportSpan s st).conn = st.conn := by
  by_cases h : st.conn <;> simp [exportSpan, h]

theorem exportSpan_trace (s : SpanObj) (st : TState) :
    (exportSpan s st).trace_id = st.trace_id := by
  by_cases h : st.conn <;> simp [exportSpan, h]

theorem exportSpan_store_true (s : SpanObj) (st : TState) (h : st.conn = true) :
    (exportSpan s st).store = st.store ++
      [{ trace_id := st.trace_id, span_id := s.span_id,
         parent_span_id := s.parent, name := s.name,
         start_time := (s.start_time.getD 0).tdiv 1000,
         end_time := (s.end_time.getD 0).tdiv 1000,
         attributes := s.attributes, status_code := s.status_code,
         events := s.events }] := by
  simp [exportSpan, h]

theorem exportSpan_store_false (s : SpanObj) (st : TState) (h : st.conn = false) :
    (exportSpan s st).store = st.store := by
  simp [exportSpan, h]

theorem exitUpdate_fields (s : SpanObj) (exc : Option String) (t : Int) :
    (exitUpdate s exc t).span_id = s.span_id ∧
    (exitUpdate s exc t).parent = s.parent ∧
    (exitUpdate s exc t).name = s.name ∧
    (exitUpdate s exc t).start_time = s.start_time ∧
    (exitUpdate s exc t).end_time = some t ∧
    (exitUpdate s exc t).events = s.events := by
  cases exc <;> simp [exitUpdate]

theorem exitUpdate_none (s : SpanObj) (t : Int) :
    exitUpdate s none t = { s with end_time := some t } := rfl

theorem exitUpdate_some (s : SpanObj) (e : String) (t : Int) :
    exitUpdate s (some e) t
      = { s with end_time := some t,
                 attributes := alUpsert s.attributes "exception" e,
                 status_code := 1 } := rfl

theorem spanExit_spec (id : String) (exc : Option String) (t : Int)
    (st : TState) (s : SpanObj) (h : alGet st.heap id = some s) :
    alGet (spanExit id exc t st).heap id = some (exitUpdate s exc t) ∧
    (spanExit id exc t st).span_stack
      = (if st.span_stack.head? = some id then st.span_stack.tail
         else st.span_stack) ∧
    (spanExit id exc t st).conn = st.conn ∧
    (spanExit id exc t st).trace_id = st.trace_id ∧
    (st.conn = true →
      (spanExit id exc t st).store = st.store ++
        [{ trace_id := st.trace_id, span_id := s.span_id,
           parent_span_id := s.parent, name := s.name,
           start_time := (s.start_time.getD 0).tdiv 1000,
           end_time := t.tdiv 1000,
           attributes := (exitUpdate s exc t).attributes,
           status_code := (exitUpdate s exc t).status_code,
           events := s.events }]) ∧
    (st.conn = false → (spanExit id exc t st).store = st.store) := by
  have hfields := exitUpdate_fields s exc t
  refine ⟨?_, ?_, ?_, ?_, ?_, ?_⟩
  · simp only [spanExit, h]
    rw [exportSpan_heap]
    exact alGet_upsert_self st.heap id (exitUpdate s exc t)
  · simp only [spanExit, h]
    rw [exportSpan_stack]
  · simp only [spanExit, h]
    rw [exportSpan_conn]
  · simp only [spanExit, h]
    rw [exportSpan_trace]
  · intro hconn
    simp only [spanExit, h]
    rw [exportSpan_store_true (exitUpdate s exc t) _ (by simp [hconn])]
    simp [hfields.1, hfields.2.1, hfields.2.2.1, hfields.2.2.2.1,
      hfields.2.2.2.2.1, hfields.2.2.2.2.2]
  · intro hconn
    simp only [spanExit, h]
    rw [exportSpan_store_false (exitUpdate s exc t) _ (by simp [hconn])]

theorem set_attribute_lookup (id k v : String) (st : TState) (s : SpanObj)
    (h : alGet st.heap id = some s) :
    alGet (set_attribute id k v st).heap id
      = some { s with attributes := alUpsert s.attributes k v } := by
  simp only [set_attribute, h]
  exact alGet_upsert_self _ _ _

theorem set_attribute_state (id k v : String) (st : TState) :
    (set_attribute id k v st).store = st.store ∧
    (set_attribute id k v st).span_stack = st.span_stack ∧
    (set_attribute id k v st).conn = st.conn ∧
    (set_attribute id k v st).trace_id = st.trace_id := by
  cases h : alGet st.heap id <;> simp [set_attribute, h]

theorem recordException_lookup (id e : String) (st : TState) (s : SpanObj)
    (h : alGet st.heap id = some s) :
    alGet (recordException id e st).heap id
      = some { s with attributes := alUpsert s.attributes "exception" e,
                      status_code := 1 } := by
  simp only [recordException, h]
  exact alGet_upsert_self _ _ _

theorem recordException_state (id e : String) (st : TState) :
    (recordException id e st).store = st.store ∧
    (recordException id e st).span_stack = st.span_stack ∧
    (recordException id e st).conn = st.conn ∧
    (recordException id e st).trace_id = st.trace_id := by
  cases h : alGet st.heap id <;> simp [recordException, h]

theorem spanEnter_spec (id name : String) (attrs : List (String × String))
    (t : Int) (st : TState) :
    alGet (spanEnter id name attrs t st).heap id
        = some { name := name, attributes := attrs,
                 parent := st.span_stack.head?, span_id := id,
                 start_time := some t, end_time := none, status_code := 0,
                 events := [] } ∧
    (spanEnter id name attrs t st).span_stack = id :: st.span_stack ∧
    (spanEnter id name attrs t st).store = st.store ∧
    (spanEnter id name attrs t st).conn = st.conn ∧
    (spanEnter id name attrs t st).trace_id = st.trace_id := by
  refine ⟨?_, rfl, rfl, rfl, rfl⟩
  exact alGet_upsert_self _ _ _

theorem tagfold_spec (tags : List (String × String)) (id : String) :
    ∀ (st : TState) (s : SpanObj), alGet st.heap id = some s →
      ∃ attrs,
        alGet (tags.foldl (fun acc kv => set_attribute id kv.1 kv.2 acc) st).heap
            id = some { s with attributes := attrs } ∧
        (tags.foldl (fun acc kv => set_attribute id kv.1 kv.2 acc) st).store
            = st.store ∧
        (tags.foldl (fun acc kv => set_attribute id kv.1 kv.2 acc) st).span_stack
            = st.span_stack ∧
        (tags.foldl (fun acc kv => set_attribute id kv.1 kv.2 acc) st).conn
            = st.conn ∧
        (tags.foldl (fun acc kv => set_attribute id kv.1 kv.2 acc) st).trace_id
            = st.trace_id := by
  induction tags with
  | nil =>
    intro st s h
    exact ⟨s.attributes, h, rfl, rfl, rfl, rfl⟩
  | cons kv tags ih =>
    intro st s h
    have h1 := set_attribute_lookup id kv.1 kv.2 st s h
    obtain ⟨attrs, ha, hstore, hstack, hconn, htid⟩ :=
      ih (set_attribute id kv.1 kv.2 st) _ h1
    have hst := set_attribute_state id kv.1 kv.2 st
    refine ⟨attrs, ?_, ?_, ?_, ?_, ?_⟩
    · rw [List.foldl_cons]
      exact ha
    · rw [List.foldl_cons, hstore, hst.1]
    · rw [List.foldl_cons, hstack, hst.2.1]
    · rw [List.foldl_cons, hconn, hst.2.2.1]
    · rw [List.foldl_cons, htid, hst.2.2.2]

/-! ## C6: exception capture and re-raise -/

/-- C6: when the work wrapped by `profile_block` raises `e`, (a) the result
is the very same exception, re-raised unchanged; (b) exactly one row is
persisted, carrying `status_code = 1` and the `"exception"` attribute set to
the failure's string representation; and (c) the same holds for a bare
`Span.__exit__` receiving a propagating exception (the `with`-statement
path, which returns `False` and so never suppresses the exception). -/
theorem c6_exception_capture (st : TState) (name : String)
    (tags : List (String × String)) (id e : String) (t0 t1 : Int)
    (hconn : st.conn = true) :
    (profile_block name tags id (Except.error e) t0 t1 st).2
        = Except.error e ∧
    (∃ row : StoredSpan,
      (profile_block name tags id (Except.error e) t0 t1 st).1.store
          = st.store ++ [row] ∧
      row.status_code = 1 ∧ alGet row.attributes "exception" = some e) ∧
    (∀ s : SpanObj, alGet st.heap id = some s →
      ∃ row : StoredSpan,
        (spanExit id (some e) t1 st).store = st.store ++ [row] ∧
        row.status_code = 1 ∧ alGet row.attributes "exception" = some e) := by
  refine ⟨rfl, ?_, ?_⟩
  · have he := spanEnter_spec id name [] t0 st
    obtain ⟨attrs, ha, hstore2, hstack2, hconn2, htid2⟩ :=
      tagfold_spec tags id (spanEnter id name [] t0 st) _ he.1
    have hrec := recordException_lookup id e
      (tags.foldl (fun acc kv => set_attribute id kv.1 kv.2 acc)
        (spanEnter id name [] t0 st)) _ ha
    have hrecst := recordException_state id e
      (tags.foldl (fun acc kv => set_attribute id kv.1 kv.2 acc)
        (spanEnter id name [] t0 st))
    have hex := spanExit_spec id none t1
      (recordException id e
        (tags.foldl (fun acc kv => set_attribute id kv.1 kv.2 acc)
          (spanEnter id name [] t0 st))) _ hrec
    have hconn3 : (recordException id e
        (tags.foldl (fun acc kv => set_attribute id kv.1 kv.2 acc)
          (spanEnter id name [] t0 st))).conn = true := by
      rw [hrecst.2.2.1, hconn2, he.2.2.2.1, hconn]
    have hstore3 : (recordException id e
        (tags.foldl (fun acc kv => set_attribute id kv.1 kv.2 acc)
          (spanEnter id name [] t0 st))).store = st.store := by
      rw [hrecst.1, hstore2, he.2.2.1]
    have hrow := hex.2.2.2.2.1 hconn3
    rw [hstore3] at hrow
    refine ⟨_, hrow, ?_, ?_⟩
    · simp [exitUpdate_none]
    · simp [exitUpdate_none, alGet_upsert_self]
  · intro s hs
    have hex := spanExit_spec id (some e) t1 st s hs
    refine ⟨_, hex.2.2.2.2.1 hconn, ?_, ?_⟩
    · simp [exitUpdate_some]
    · simp [exitUpdate_some, alGet_upsert_self]

/-- C6 witness: a concrete failing block under an initialized session. -/
theorem c6_exception_capture_witness :
    (profile_block "op" [("k", "v")] "s1" (Except.error "boom") 1000 2000
        (stInit "T")).2 = Except.error "boom" ∧
    (∃ row : StoredSpan,
      (profile_block "op" [("k", "v")] "s1" (Except.error "boom") 1000 2000
          (stInit "T")).1.store = (stInit "T").store ++ [row] ∧
      row.status_code = 1 ∧ alGet row.attributes "exception" = some "boom") ∧
    (∀ s : SpanObj, alGet (stInit "T").heap "s1" = some s →
      ∃ row : StoredSpan,
        (spanExit "s1" (some "boom") 2000 (stInit "T")).store
            = (stInit "T").store ++ [row] ∧
        row.status_code = 1 ∧ alGet row.attributes "exception" = some "boom") :=
  c6_exception_capture (stInit "T") "op" [("k", "v")] "s1" "boom" 1000 2000 rfl

/-! ## C7: closing a span -/

/-- C7: `Span.__exit__` records the end timestamp on the span, pops the
stack only when the span is still its top (an out-of-order close leaves the
stack untouched), and — whenever the store connection is up — always
appends exactly one finished row for the span, whether or not it was the
top of the stack. -/
theorem c7_span_close (st : TState) (id : String) (exc : Option String)
    (t : Int) (s : SpanObj) (h : alGet st.heap id = some s) :
    (∃ s', alGet (spanExit id exc t st).heap id = some s' ∧
      s'.end_time = some t) ∧
    (st.span_stack.head? = some id →
      (spanExit id exc t st).span_stack = st.span_stack.tail) ∧
    (st.span_stack.head? ≠ some id →
      (spanExit id exc t st).span_stack = st.span_stack) ∧
    (st.conn = true → ∃ row : StoredSpan,
      (spanExit id exc t st).store = st.store ++ [row] ∧
      row.span_id = s.span_id ∧ row.end_time = t.tdiv 1000) := by
  have hs := spanExit_spec id exc t st s h
  refine ⟨⟨exitUpdate s exc t, hs.1, (exitUpdate_fields s exc t).2.2.2.2.1⟩,
    ?_, ?_, ?_⟩
  · intro htop
    rw [hs.2.1, if_pos htop]
  · intro htop
    rw [hs.2.1, if_neg htop]
  · intro hconn
    exact ⟨_, hs.2.2.2.2.1 hconn, rfl, rfl⟩

/-- C7 witness: closing the bottom span `x` out of order (its child `y` is
still the stack top): `x` gets an end timestamp and a stored row, and the
stack is left unchanged rather than corrupted. -/
theorem c7_span_close_witness :
    (∃ s', alGet (spanExit "x" none 3000 stTwo).heap "x" = some s' ∧
      s'.end_time = some 3000) ∧
    (spanExit "x" none 3000 stTwo).span_stack = stTwo.span_stack ∧
    (∃ row : StoredSpan,
      (spanExit "x" none 3000 stTwo).store = stTwo.store ++ [row] ∧
      row.span_id = spanX.span_id ∧ row.end_time = Int.tdiv 3000 1000) := by
  have h := c7_span_close stTwo "x" none 3000 spanX (by decide)
  exact ⟨h.1, h.2.2.1 (by decide), h.2.2.2 rfl⟩

/-! ## C8: `set_attribute` after close -/

/-- C8 (counterexample): `set_attribute` has no open-span guard: applied to
a span whose `end_time` is already set, it still mutates the in-memory
attribute map, so the closed span does not stay unchanged. -/
theorem c8_set_attribute_counterexample :
    closedSpanObj.end_time = some 5000 ∧
    alGet (set_attribute "a" "k2" "v2" stClosed).heap "a"
        = some { closedSpanObj with
                   attributes := [("k", "v"), ("k2", "v2")] } ∧
    (set_attribute "a" "k2" "v2" stClosed).heap ≠ stClosed.heap := by
  refine ⟨rfl, by decide, by decide⟩

/-- C8 (amended): calling `set_attribute` on a span — open or closed, there
is no check — replaces the key in its in-memory attribute map; the
persisted store and the span stack are unaffected (the row written when the
span closed is immutable, so a late `set_attribute` never reaches the
store). -/
theorem c8_set_attribute_after_close (st : TState) (id k v : String)
    (s : SpanObj) (h : alGet st.heap id = some s) :
    alGet (set_attribute id k v st).heap id
        = some { s with attributes := alUpsert s.attributes k v } ∧
    (set_attribute id k v st).store = st.store ∧
    (set_attribute id k v st).span_stack = st.span_stack := by
  exact ⟨set_attribute_lookup id k v st s h,
    (set_attribute_state id k v st).1, (set_attribute_state id k v st).2.1⟩

/-- C8 witness: the amended behavior at the concrete closed span. -/
theorem c8_set_attribute_after_close_witness :
    alGet (set_attribute "a" "k2" "v2" stClosed).heap "a"
        = some { closedSpanObj with
                   attributes := alUpsert closedSpanObj.attributes "k2" "v2" } ∧
    (set_attribute "a" "k2" "v2" stClosed).store = stClosed.store ∧
    (set_attribute "a" "k2" "v2" stClosed).span_stack = stClosed.span_stack :=
  c8_set_attribute_after_close stClosed "a" "k2" "v2" closedSpanObj (by decide)

/-! ## C9: trace shape invariants -/

theorem chainOK_snoc : ∀ (l : List (String × Option String)) (seen : List String)
    (k : String) (par : Option String), ChainOK seen l →
    (∀ p, par = some p → p ∈ seen ++ l.map (fun e => e.1)) →
    (par = none → seen ++ l.map (fun e => e.1) = []) →
    ChainOK seen (l ++ [(k, par)]) := by
  intro l
  induction l with
  | nil =>
    intro seen k par _ hsome hnone
    refine ⟨?_, trivial⟩
    rcases par with _ | p
    · simpa using hnone rfl
    · simpa using hsome p rfl
  | cons e rest ih =>
    intro seen k par hok hsome hnone
    obtain ⟨k0, p0⟩ := e
    obtain ⟨hc, hrest⟩ := hok
    refine ⟨hc, ih (seen ++ [k0]) k par hrest ?_ ?_⟩
    · intro p hp
      have := hsome p hp
      simp only [List.map_cons, List.append_assoc, List.singleton_append]
      simpa using this
    · intro hp
      exact absurd (hnone hp) (by simp)

theorem chainOK_root_eq_head : ∀ (l : List (String × Option String))
    (seen : List String) (k : String), ChainOK seen l → (k, none) ∈ l →
    seen = [] ∧ ∃ rest, l = (k, none) :: rest := by
  intro l
  induction l with
  | nil =>
    intro seen k _ hmem
    simp at hmem
  | cons e rest ih =>
    intro seen k hok hmem
    obtain ⟨k0, p0⟩ := e
    obtain ⟨hc, hrest⟩ := hok
    rcases List.mem_cons.mp hmem with heq | hmem'
    · cases heq
      exact ⟨hc, rest, rfl⟩
    · obtain ⟨habs, _⟩ := ih (seen ++ [k0]) k hrest hmem'
      exact absurd habs (by simp)

theorem chainOK_unique_root (l : List (String × Option String))
    (h : ChainOK [] l) (k1 k2 : String) (h1 : (k1, none) ∈ l)
    (h2 : (k2, none) ∈ l) : k1 = k2 := by
  obtain ⟨_, rest1, hl1⟩ := chainOK_root_eq_head l [] k1 h h1
  obtain ⟨_, rest2, hl2⟩ := chainOK_root_eq_head l [] k2 h h2
  rw [hl1] at hl2
  simp only [List.cons.injEq, Prod.mk.injEq] at hl2
  exact hl2.1.1

theorem chainOK_parent_mem : ∀ (l : List (String × Option String))
    (seen : List String) (k p : String), ChainOK seen l → (k, some p) ∈ l →
    p ∈ seen ++ l.map (fun e => e.1) := by
  intro l
  induction l with
  | nil =>
    intro seen k p _ hmem
    simp at hmem
  | cons e rest ih =>
    intro seen k p hok hmem
    obtain ⟨k0, p0⟩ := e
    obtain ⟨hc, hrest⟩ := hok
    rcases List.mem_cons.mp hmem with heq | hmem'
    · cases heq
      simp only [List.map_cons]
      exact List.mem_append_left _ hc
    · have := ih (seen ++ [k0]) k p hrest hmem'
      simp only [List.map_cons]
      simpa using this

theorem chainOK_parent_lt : ∀ (l : List (String × Option String))
    (seen : List String) (k p : String), ChainOK seen l →
    (seen ++ l.map (fun e => e.1)).Nodup → (k, some p) ∈ l →
    List.indexOf p (seen ++ l.map (fun e => e.1))
      < List.indexOf k (seen ++ l.map (fun e => e.1)) := by
  intro l
  induction l with
  | nil =>
    intro seen k p _ _ hmem
    simp at hmem
  | cons e rest ih =>
    intro seen k p hok hnd hmem
    obtain ⟨k0, p0⟩ := e
    obtain ⟨hc, hrest⟩ := hok
    rcases List.mem_cons.mp hmem with heq | hmem'
    · cases heq
      have hpseen : p ∈ seen := hc
      have hknotseen : k ∉ seen := by
        intro hk
        rw [List.nodup_append] at hnd
        exact hnd.2.2 hk (by simp)
      rw [List.indexOf_append_of_mem hpseen,
          List.indexOf_append_of_not_mem hknotseen]
      have h1 : List.indexOf p seen < seen.length :=
        List.indexOf_lt_length.mpr hpseen
      omega
    · have hnd' : ((seen ++ [k0]) ++ rest.map (fun e => e.1)).Nodup := by
        simpa using hnd
      have := ih (seen ++ [k0]) k p hrest hnd' hmem'
      simp only [List.map_cons]
      have hassoc : (seen ++ [k0]) ++ rest.map (fun e => e.1)
          = seen ++ k0 :: rest.map (fun e => e.1) := by simp
      rw [hassoc] at this
      exact this

theorem shape_alUpsert (h : List (String × SpanObj)) (id : String)
    (s s2 : SpanObj) (hget : alGet h id = some s) (hpar : s2.parent = s.parent) :
    shape (alUpsert h id s2) = shape h :=
  map_alUpsert_of_get h id s2 s _ hget (by simp [hpar])

theorem shape_keys (h : List (String × SpanObj)) :
    (shape h).map (fun e => e.1) = h.map (fun e => e.1) := by
  simp [shape]

theorem mem_shape_of_mem (h : List (String × SpanObj)) (e : String × SpanObj)
    (hmem : e ∈ h) : (e.1, e.2.parent) ∈ shape h :=
  List.mem_map_of_mem _ hmem

theorem inv_stInit (tid : String) : Inv (stInit tid) := by
  refine ⟨rfl, by simp [stInit], ?_, ?_, ?_, by simp [stInit], ?_, by simp [stInit], ?_, ?_⟩
  · exact trivial
  · intro e he
    simp [stInit] at he
  · intro i hi
    simp [stInit] at hi
  · intro r hr
    simp [stInit] at hr
  · intro r hr
    simp [stInit] at hr
  · intro e he
    simp [stInit] at he

theorem inv_set_attribute (st : TState) (id k v : String) (h : Inv st) :
    Inv (set_attribute id k v st) := by
  rcases hget : alGet st.heap id with _ | s
  · simpa [set_attribute, hget] using h
  · have hmem := alGet_mem st.heap id s hget
    have hkeq : s.span_id = id := h.key_eq (id, s) hmem
    have hkeys := map_fst_alUpsert_of_get st.heap id
      ({ s with attributes := alUpsert s.attributes k v }) s hget
    have hshape := shape_alUpsert st.heap id s
      ({ s with attributes := alUpsert s.attributes k v }) hget rfl
    simp only [set_attribute, hget]
    refine ⟨h.conn_up, ?_, ?_, ?_, ?_, h.stack_nodup, ?_, h.store_nodup,
      h.store_off_stack, ?_⟩
    · show (List.map (fun e => e.1) (alUpsert st.heap id _)).Nodup
      rw [hkeys]
      exact h.heap_nodup
    · show ChainOK [] (shape (alUpsert st.heap id _))
      rw [hshape]
      exact h.good
    · intro e he
      rcases mem_alUpsert _ _ _ e he with he' | he'
      · exact h.key_eq e he'
      · subst he'
        simpa using hkeq
    · intro i hi
      show i ∈ List.map (fun e => e.1) (alUpsert st.heap id _)
      rw [hkeys]
      exact h.stack_sub i hi
    · intro r hr
      obtain ⟨htr, hsh⟩ := h.store_match r hr
      refine ⟨htr, ?_⟩
      show (r.span_id, r.parent_span_id) ∈ shape (alUpsert st.heap id _)
      rw [hshape]
      exact hsh
    · intro e he hstk
      rcases mem_alUpsert _ _ _ e he with he' | he'
      · exact h.closed_stored e he' hstk
      · subst he'
        exact h.closed_stored (id, s) hmem (by simpa using hstk)

theorem inv_spanEnter (st : TState) (id name : String) (t : Int) (h : Inv st)
    (hfresh : alGet st.heap id = none)
    (hroot : st.span_stack ≠ [] ∨ st.heap = []) :
    Inv (spanEnter id name [] t st) := by
  have hnotmem : id ∉ st.heap.map (fun e => e.1) :=
    (alGet_eq_none_iff _ _).mp hfresh
  simp only [spanEnter]
  rw [alUpsert_of_not_mem st.heap id _ hnotmem]
  refine ⟨h.conn_up, ?_, ?_, ?_, ?_, ?_, ?_, h.store_nodup, ?_, ?_⟩
  · rw [List.map_append]
    refine List.Nodup.append h.heap_nodup (by simp) ?_
    intro a ha hb
    simp at hb
    subst hb
    exact hnotmem ha
  · show ChainOK [] (shape (st.heap ++ [(id, _)]))
    rw [shape, List.map_append]
    apply chainOK_snoc (shape st.heap) [] id st.span_stack.head? h.good
    · intro p hp
      have hpstack : p ∈ st.span_stack := by
        cases hs : st.span_stack with
        | nil => rw [hs] at hp; simp at hp
        | cons a tl =>
          rw [hs] at hp
          simp at hp
          simp [hs, hp]
      have := h.stack_sub p hpstack
      rw [shape_keys]
      simpa using this
    · intro hp
      have hstk : st.span_stack = [] := by
        cases hs : st.span_stack with
        | nil => rfl
        | cons a tl => rw [hs] at hp; simp at hp
      have hheap : st.heap = [] := by
        rcases hroot with hr | hr
        · exact absurd hstk hr
        · exact hr
      simp [hheap, shape]
  · intro e he
    rcases List.mem_append.mp he with he' | he'
    · exact h.key_eq e he'
    · simp at he'
      subst he'
      rfl
  · intro i hi
    rcases List.mem_cons.mp hi with hi' | hi'
    · subst hi'
      simp
    · rw [List.map_append]
      exact List.mem_append_left _ (h.stack_sub i hi')
  · exact List.nodup_cons.mpr
      ⟨fun hid => hnotmem (h.stack_sub id hid), h.stack_nodup⟩
  · intro r hr
    obtain ⟨htr, hsh⟩ := h.store_match r hr
    refine ⟨htr, ?_⟩
    show (r.span_id, r.parent_span_id) ∈ shape (st.heap ++ [(id, _)])
    rw [shape, List.map_append]
    exact List.mem_append_left _ hsh
  · intro r hr
    have hsh := (h.store_match r hr).2
    have hrk : r.span_id ∈ st.heap.map (fun e => e.1) := by
      rw [← shape_keys]
      exact List.mem_map_of_mem _ hsh
    intro hmem
    rcases List.mem_cons.mp hmem with hmem' | hmem'
    · subst hmem'
      exact hnotmem hrk
    · exact h.store_off_stack r hr hmem'
  · intro e he hstk
    rcases List.mem_append.mp he with he' | he'
    · exact h.closed_stored e he' (fun hc => hstk (List.mem_cons_of_mem _ hc))
    · simp at he'
      subst he'
      exact absurd (List.mem_cons_self _ _) hstk

theorem inv_spanExit (st : TState) (id : String) (exc : Option String)
    (t : Int) (h : Inv st) (htop : st.span_stack.head? = some id) :
    Inv (spanExit id exc t st) := by
  obtain ⟨tl, hstack⟩ : ∃ tl, st.span_stack = id :: tl := by
    cases hs : st.span_stack with
    | nil => rw [hs] at htop; simp at htop
    | cons a tl =>
      rw [hs] at htop
      simp at htop
      exact ⟨tl, by rw [htop]⟩
  have hidmem : id ∈ st.heap.map (fun e => e.1) :=
    h.stack_sub id (by rw [hstack]; simp)
  obtain ⟨s, hget⟩ := alGet_isSome_of_mem _ _ hidmem
  have hmem := alGet_mem _ _ _ hget
  have hkeq : s.span_id = id := h.key_eq (id, s) hmem
  have hf := exitUpdate_fields s exc t
  have hkeys := map_fst_alUpsert_of_get st.heap id (exitUpdate s exc t) s hget
  have hshape := shape_alUpsert st.heap id s (exitUpdate s exc t) hget hf.2.1
  have htlnodup : tl.Nodup := (List.nodup_cons.mp (hstack ▸ h.stack_nodup)).2
  have hidtl : id ∉ tl := (List.nodup_cons.mp (hstack ▸ h.stack_nodup)).1
  simp only [spanExit, hget]
  rw [hstack]
  have hif : ((id :: tl).head? = some id) := rfl
  rw [if_pos hif]
  simp only [List.tail_cons]
  have hconnR : (TState.mk (alUpsert st.heap id (exitUpdate s exc t)) tl
      st.store st.conn st.trace_id).conn = true := h.conn_up
  refine ⟨?_, ?_, ?_, ?_, ?_, ?_, ?_, ?_, ?_, ?_⟩
  · rw [exportSpan_conn]
    exact h.conn_up
  · rw [exportSpan_heap]
    show (List.map (fun e => e.1) (alUpsert st.heap id (exitUpdate s exc t))).Nodup
    rw [hkeys]
    exact h.heap_nodup
  · rw [exportSpan_heap]
    show ChainOK [] (shape (alUpsert st.heap id (exitUpdate s exc t)))
    rw [hshape]
    exact h.good
  · rw [exportSpan_heap]
    intro e he
    rcases mem_alUpsert _ _ _ e he with he' | he'
    · exact h.key_eq e he'
    · subst he'
      show (exitUpdate s exc t).span_id = id
      rw [hf.1]
      exact hkeq
  · rw [exportSpan_stack, exportSpan_heap]
    intro i hi
    show i ∈ List.map (fun e => e.1) (alUpsert st.heap id (exitUpdate s exc t))
    rw [hkeys]
    exact h.stack_sub i (by rw [hstack]; exact List.mem_cons_of_mem _ hi)
  · rw [exportSpan_stack]
    exact htlnodup
  · rw [exportSpan_store_true _ _ hconnR]
    intro r hr
    rcases List.mem_append.mp hr with hr' | hr'
    · obtain ⟨htr, hsh⟩ := h.store_match r hr'
      refine ⟨by rw [exportSpan_trace]; exact htr, ?_⟩
      rw [exportSpan_heap]
      show (r.span_id, r.parent_span_id)
          ∈ shape (alUpsert st.heap id (exitUpdate s exc t))
      rw [hshape]
      exact hsh
    · simp only [List.mem_singleton] at hr'
      subst hr'
      refine ⟨by rw [exportSpan_trace], ?_⟩
      rw [exportSpan_heap]
      show ((exitUpdate s exc t).span_id, (exitUpdate s exc t).parent)
          ∈ shape (alUpsert st.heap id (exitUpdate s exc t))
      rw [hshape, hf.1, hf.2.1]
      have := mem_shape_of_mem st.heap (id, s) hmem
      simpa [hkeq] using this
  · rw [exportSpan_store_true _ _ hconnR]
    rw [List.map_append]
    refine List.Nodup.append h.store_nodup (by simp) ?_
    intro a ha hb
    simp only [List.map_cons, List.map_nil, List.mem_singleton] at hb
    subst hb
    obtain ⟨r, hr, hrid⟩ := List.mem_map.mp ha
    have := h.store_off_stack r hr
    rw [hstack] at this
    apply this
    rw [hrid]
    show (exitUpdate s exc t).span_id ∈ id :: tl
    rw [hf.1, hkeq]
    simp
  · rw [exportSpan_store_true _ _ hconnR, exportSpan_stack]
    intro r hr
    rcases List.mem_append.mp hr with hr' | hr'
    · have := h.store_off_stack r hr'
      rw [hstack] at this
      exact fun hc => this (List.mem_cons_of_mem _ hc)
    · simp only [List.mem_singleton] at hr'
      subst hr'
      show (exitUpdate s exc t).span_id ∉ tl
      rw [hf.1, hkeq]
      exact hidtl
  · rw [exportSpan_store_true _ _ hconnR, exportSpan_stack, exportSpan_heap]
    intro e he hstk
    rcases mem_alUpsert _ _ _ e he with he' | he'
    · by_cases hid : e.1 = id
      · refine ⟨_, List.mem_append_right _ (List.mem_singleton.mpr rfl), ?_⟩
        show (exitUpdate s exc t).span_id = e.1
        rw [hf.1, hkeq, hid]
      · have : e.1 ∉ st.span_stack := by
          rw [hstack]
          intro hc
          rcases List.mem_cons.mp hc with hc' | hc'
          · exact hid hc'
          · exact hstk hc'
        obtain ⟨r, hr, hrid⟩ := h.closed_stored e he' this
        exact ⟨r, List.mem_append_left _ hr, hrid⟩
    · subst he'
      refine ⟨_, List.mem_append_right _ (List.mem_singleton.mpr rfl), ?_⟩
      show (exitUpdate s exc t).span_id = id
      rw [hf.1]
      exact hkeq

theorem runOp_trace (st : TState) (op : TOp) :
    (runOp st op).trace_id = st.trace_id := by
  rcases op with ⟨id, name, t⟩ | ⟨id, exc, t⟩ | ⟨id, k, v⟩
  · rfl
  · rcases hget : alGet st.heap id with _ | s
    · simp [runOp, spanExit, hget]
    · simp only [runOp, spanExit, hget]
      rw [exportSpan_trace]
  · rcases hget : alGet st.heap id with _ | s <;>
      simp [runOp, set_attribute, hget]

theorem runOps_trace : ∀ (ops : List TOp) (st : TState),
    (runOps st ops).trace_id = st.trace_id := by
  intro ops
  induction ops with
  | nil => intro st; rfl
  | cons op ops ih =>
    intro st
    show (runOps (runOp st op) ops).trace_id = st.trace_id
    rw [ih, runOp_trace]

theorem inv_runOps : ∀ (ops : List TOp) (st : TState), Inv st →
    legalFrom st ops = true → Inv (runOps st ops) := by
  intro ops
  induction ops with
  | nil =>
    intro st h _
    exact h
  | cons op ops ih =>
    intro st h hleg
    have hstep : Inv (runOp st op) := by
      rcases op with ⟨id, name, t⟩ | ⟨id, exc, t⟩ | ⟨id, k, v⟩
      · simp only [legalFrom, Bool.and_eq_true] at hleg
        obtain ⟨⟨h1, h2⟩, _⟩ := hleg
        have hfresh : alGet st.heap id = none := by
          simpa [Option.isNone_iff_eq_none] using h1
        have hroot : st.span_stack ≠ [] ∨ st.heap = [] := by
          rcases Bool.or_eq_true _ _ |>.mp h2 with h3 | h3
          · left
            simpa [List.isEmpty_iff] using h3
          · right
            simpa [List.isEmpty_iff] using h3
        exact inv_spanEnter st id name t h hfresh hroot
      · simp only [legalFrom, Bool.and_eq_true] at hleg
        obtain ⟨h1, _⟩ := hleg
        have htop : st.span_stack.head? = some id := by
          simpa using h1
        exact inv_spanExit st id exc t h htop
      · exact inv_set_attribute st id k v h
    have hleg' : legalFrom (runOp st op) ops = true := by
      rcases op with ⟨id, name, t⟩ | ⟨id, exc, t⟩ | ⟨id, k, v⟩ <;>
        (simp only [legalFrom, Bool.and_eq_true] at hleg; exact hleg.2)
    exact ih (runOp st op) hstep hleg'

theorem mem_pair_inj {β : Type} (l : List (String × β)) (k : String) (a b : β)
    (hnd : (l.map (fun e => e.1)).Nodup) (ha : (k, a) ∈ l) (hb : (k, b) ∈ l) :
    a = b := by
  have := List.inj_on_of_nodup_map hnd ha hb rfl
  exact congrArg Prod.snd this

/-- C9 (amended): in any single-session run in which span ids are fresh,
only one span is ever opened on an empty stack (the session root), spans
are closed in well-nested order, and every opened span is closed by the end
(`legalFrom` plus an empty final stack), the persisted trace is a proper
tree: all rows carry the session's trace id, the row with null
`parent_span_id` is unique (and exists once anything was persisted), every
non-null parent id belongs to a row of the same trace, the parent relation
has no cycles, and every non-root row reaches the root by following parent
pointers. -/
theorem c9_trace_tree (tid : String) (ops : List TOp)
    (hleg : legalFrom (stInit tid) ops = true)
    (hdone : (runOps (stInit tid) ops).span_stack = []) :
    (∀ r ∈ (runOps (stInit tid) ops).store, r.trace_id = tid) ∧
    (∀ r1 ∈ (runOps (stInit tid) ops).store,
      ∀ r2 ∈ (runOps (stInit tid) ops).store,
      r1.parent_span_id = none → r2.parent_span_id = none → r1 = r2) ∧
    ((runOps (stInit tid) ops).store ≠ [] →
      ∃ root ∈ (runOps (stInit tid) ops).store, root.parent_span_id = none) ∧
    (∀ r ∈ (runOps (stInit tid) ops).store, ∀ p, r.parent_span_id = some p →
      ∃ r' ∈ (runOps (stInit tid) ops).store, r'.span_id = p) ∧
    (∀ r ∈ (runOps (stInit tid) ops).store,
      ¬ Relation.TransGen (parentRel (runOps (stInit tid) ops).store) r r) ∧
    (∀ r ∈ (runOps (stInit tid) ops).store, r.parent_span_id ≠ none →
      ∃ root ∈ (runOps (stInit tid) ops).store,
        root.parent_span_id = none ∧
        Relation.TransGen (parentRel (runOps (stInit tid) ops).store) r root) := by
  have hInv := inv_runOps ops (stInit tid) (inv_stInit tid) hleg
  have htr : (runOps (stInit tid) ops).trace_id = tid := runOps_trace ops _
  set stf := runOps (stInit tid) ops with hstf
  have hrows : ∀ r ∈ stf.store,
      (r.span_id, r.parent_span_id) ∈ shape stf.heap :=
    fun r hr => (hInv.store_match r hr).2
  have hshkeys : (shape stf.heap).map (fun e => e.1)
      = stf.heap.map (fun e => e.1) := shape_keys _
  have hshnodup : ((shape stf.heap).map (fun e => e.1)).Nodup := by
    rw [hshkeys]
    exact hInv.heap_nodup
  have hrowinj : ∀ r1 ∈ stf.store, ∀ r2 ∈ stf.store,
      r1.span_id = r2.span_id → r1 = r2 :=
    fun r1 h1 r2 h2 he => List.inj_on_of_nodup_map hInv.store_nodup h1 h2 he
  have hcover : ∀ e ∈ stf.heap, ∃ r ∈ stf.store, r.span_id = e.1 :=
    fun e he => hInv.closed_stored e he (by rw [hdone]; simp)
  have hkey_to_row : ∀ k, k ∈ stf.heap.map (fun e => e.1) →
      ∃ r ∈ stf.store, r.span_id = k := by
    intro k hk
    obtain ⟨e, he, hek⟩ := List.mem_map.mp hk
    obtain ⟨r, hr, hrk⟩ := hcover e he
    exact ⟨r, hr, by rw [hrk, hek]⟩
  have hdec : ∀ a b, parentRel stf.store a b →
      List.indexOf b.span_id (stf.heap.map (fun e => e.1))
        < List.indexOf a.span_id (stf.heap.map (fun e => e.1)) := by
    intro a b hab
    obtain ⟨ha, hb, hpar⟩ := hab
    have hmem : (a.span_id, some b.span_id) ∈ shape stf.heap := by
      have := hrows a ha
      rw [hpar] at this
      exact this
    have := chainOK_parent_lt (shape stf.heap) [] a.span_id b.span_id
      hInv.good (by simpa using hshnodup) hmem
    simpa [hshkeys] using this
  have hparent_row : ∀ r ∈ stf.store, ∀ p, r.parent_span_id = some p →
      ∃ r' ∈ stf.store, r'.span_id = p := by
    intro r hr p hp
    have hmem : (r.span_id, some p) ∈ shape stf.heap := by
      have := hrows r hr
      rw [hp] at this
      exact this
    have hpk := chainOK_parent_mem (shape stf.heap) [] r.span_id p
      hInv.good hmem
    rw [List.nil_append, hshkeys] at hpk
    exact hkey_to_row p hpk
  refine ⟨?_, ?_, ?_, hparent_row, ?_, ?_⟩
  · intro r hr
    rw [← htr]
    exact (hInv.store_match r hr).1
  · intro r1 h1 r2 h2 hp1 hp2
    have hm1 : (r1.span_id, none) ∈ shape stf.heap := by
      have := hrows r1 h1
      rw [hp1] at this
      exact this
    have hm2 : (r2.span_id, none) ∈ shape stf.heap := by
      have := hrows r2 h2
      rw [hp2] at this
      exact this
    exact hrowinj r1 h1 r2 h2
      (chainOK_unique_root _ hInv.good _ _ hm1 hm2)
  · intro hne
    obtain ⟨r, hr⟩ := List.exists_mem_of_ne_nil _ hne
    have hsh := hrows r hr
    rcases hhp : shape stf.heap with _ | ⟨e0, rest⟩
    · rw [hhp] at hsh
      simp at hsh
    · obtain ⟨k0, p0⟩ := e0
      have hgood := hInv.good
      rw [hhp] at hgood
      obtain ⟨hc, _⟩ := hgood
      have hp0 : p0 = none := by
        rcases p0 with _ | q
        · rfl
        · simp at hc
      subst hp0
      have hk0 : k0 ∈ stf.heap.map (fun e => e.1) := by
        rw [← hshkeys, hhp]
        simp
      obtain ⟨r0, hr0, hr0k⟩ := hkey_to_row k0 hk0
      refine ⟨r0, hr0, ?_⟩
      have hm : (k0, r0.parent_span_id) ∈ shape stf.heap := by
        have := hrows r0 hr0
        rw [hr0k] at this
        exact this
      have hm0 : ((k0, none) : String × Option String) ∈ shape stf.heap := by
        rw [hhp]
        simp
      exact mem_pair_inj _ k0 _ _ hshnodup hm hm0
  · intro r hr hcyc
    have hmono : ∀ a b, Relation.TransGen (parentRel stf.store) a b →
        List.indexOf b.span_id (stf.heap.map (fun e => e.1))
          < List.indexOf a.span_id (stf.heap.map (fun e => e.1)) := by
      intro a b hab
      induction hab with
      | single h1 => exact hdec _ _ h1
      | tail _ h2 ih => exact lt_trans (hdec _ _ h2) ih
    exact absurd (hmono r r hcyc) (lt_irrefl _)
  · have hreach : ∀ n, ∀ r ∈ stf.store,
        List.indexOf r.span_id (stf.heap.map (fun e => e.1)) = n →
        r.parent_span_id ≠ none →
        ∃ root ∈ stf.store, root.parent_span_id = none ∧
          Relation.TransGen (parentRel stf.store) r root := by
      intro n
      induction n using Nat.strong_induction_on with
      | _ n ih =>
        intro r hr hidx hne
        rcases hp : r.parent_span_id with _ | p
        · exact absurd hp hne
        obtain ⟨r', hr', hr'sid⟩ := hparent_row r hr p hp
        have hstep : parentRel stf.store r r' := ⟨hr, hr', by rw [hp, hr'sid]⟩
        have hlt : List.indexOf r'.span_id (stf.heap.map (fun e => e.1)) < n := by
          rw [← hidx]
          exact hdec r r' hstep
        rcases hq : r'.parent_span_id with _ | q
        · exact ⟨r', hr', hq, Relation.TransGen.single hstep⟩
        · obtain ⟨root, hroot, hrootp, hchain⟩ :=
            ih _ hlt r' hr' rfl (by simp [hq])
          exact ⟨root, hroot, hrootp, Relation.TransGen.head hstep hchain⟩
    intro r hr hne
    exact hreach (List.indexOf r.span_id (stf.heap.map (fun e => e.1)))
      r hr rfl hne

/-- C9 (counterexample): a session in which two top-level spans are opened
and closed one after another persists two rows with null `parent_span_id`
under the same trace id — the null-parent span of a trace need not be
unique, so the claimed invariant fails on this reachable store. -/
theorem c9_two_roots_counterexample :
    ((runOps (stInit "T") opsTwoRoots).store.filter
        (fun r => r.parent_span_id.isNone)).length = 2 ∧
    (∀ r ∈ (runOps (stInit "T") opsTwoRoots).store, r.trace_id = "T") ∧
    ¬ (∀ r1 ∈ (runOps (stInit "T") opsTwoRoots).store,
        ∀ r2 ∈ (runOps (stInit "T") opsTwoRoots).store,
        r1.parent_span_id = none → r2.parent_span_id = none → r1 = r2) := by
  refine ⟨by decide, by decide, by decide⟩

/-- C9 witness: a legal well-nested session — a root with two sequential
children — hits every hypothesis and yields the full tree shape. -/
theorem c9_trace_tree_witness :
    (∀ r ∈ (runOps (stInit "T") opsNested).store, r.trace_id = "T") ∧
    (∀ r1 ∈ (runOps (stInit "T") opsNested).store,
      ∀ r2 ∈ (runOps (stInit "T") opsNested).store,
      r1.parent_span_id = none → r2.parent_span_id = none → r1 = r2) ∧
    ((runOps (stInit "T") opsNested).store ≠ [] →
      ∃ root ∈ (runOps (stInit "T") opsNested).store,
        root.parent_span_id = none) ∧
    (∀ r ∈ (runOps (stInit "T") opsNested).store, ∀ p,
      r.parent_span_id = some p →
      ∃ r' ∈ (runOps (stInit "T") opsNested).store, r'.span_id = p) ∧
    (∀ r ∈ (runOps (stInit "T") opsNested).store,
      ¬ Relation.TransGen (parentRel (runOps (stInit "T") opsNested).store)
        r r) ∧
    (∀ r ∈ (runOps (stInit "T") opsNested).store, r.parent_span_id ≠ none →
      ∃ root ∈ (runOps (stInit "T") opsNested).store,
        root.parent_span_id = none ∧
        Relation.TransGen (parentRel (runOps (stInit "T") opsNested).store)
          r root) :=
  c9_trace_tree "T" opsNested (by decide) (by decide)
